import Mathlib

/-!
Formal model of the search and tagging core in `src/utils/searchService.ts`
(`SearchService`), together with the document record from `src/types.ts`.

JS strings are modelled as `List Char`; indices are `Nat` character offsets.
Case folding and the whitespace class are modelled on the ASCII fragment, in
line with the ASCII-safe assumption stated by the specification.

The query terms are fed to `new RegExp(term, 'g')` by the source.  For a term
containing no regular-expression metacharacters (`isRegexMeta`) this regex
performs a literal substring scan that resumes right after the end of each
match, and that literal scan is what `firstOcc` / `execPosGo` below embed.
Terms that contain metacharacters are interpreted as regex syntax by the
source (see the `dotExecPositions` and `starAExecGo` models further down,
which exhibit the divergences at such terms); theorems whose content depends
on which text matches therefore carry the metacharacter-free hypothesis,
while the remaining theorems hold of every returning call regardless of
match semantics.
-/

namespace RagNavigator

/-- Whitespace test used by JS `\s` and `String.prototype.trim`, restricted to
the ASCII range: space, tab, line feed, vertical tab, form feed, carriage
return. -/
def jsWs (c : Char) : Bool :=
  c.toNat = 32 || c.toNat = 9 || c.toNat = 10 || c.toNat = 11 || c.toNat = 12 || c.toNat = 13

/-- ASCII action of `String.prototype.toLowerCase`: map `A`–`Z` (code points
65–90) to `a`–`z` by adding 32, leave every other character unchanged. -/
def jsToLower (c : Char) : Char :=
  if 65 ≤ c.toNat && c.toNat ≤ 90 then Char.ofNat (c.toNat + 32) else c

/-- JS `String.prototype.trim`: drop leading and trailing whitespace. -/
def jsTrim (l : List Char) : List Char :=
  (((l.dropWhile fun c => jsWs c).reverse.dropWhile fun c => jsWs c)).reverse

/-- ECMAScript regular-expression syntax characters, by code point:
`^` (94), `$` (36), backslash (92), `.` (46), `*` (42), `+` (43), `?` (63),
`(` (40), `)` (41), `[` (91), `]` (93), left brace (123), right brace (125),
`|` (124).  A term none of whose characters is such a character is matched by
`new RegExp(term, 'g')` as a literal substring; a term containing one is
interpreted as regex syntax by the source (claims C2, C3, C4, C6, C10). -/
def isRegexMeta (c : Char) : Bool :=
  c.toNat = 94 || c.toNat = 36 || c.toNat = 92 || c.toNat = 46 || c.toNat = 42 ||
    c.toNat = 43 || c.toNat = 63 || c.toNat = 40 || c.toNat = 41 || c.toNat = 91 ||
    c.toNat = 93 || c.toNat = 123 || c.toNat = 125 || c.toNat = 124

/-- Loop of `query.toLowerCase().split(/\s+/).filter(t => t.length > 0)`:
walk the characters keeping the current token in reverse; a whitespace
character flushes the token.  Splitting on whitespace runs and then filtering
out empty pieces yields exactly these tokens. -/
def tokenizeGo : List Char → List Char → List (List Char)
  | [], cur => if cur.isEmpty then [] else [cur.reverse]
  | c :: rest, cur =>
    if jsWs c then
      (if cur.isEmpty then tokenizeGo rest [] else cur.reverse :: tokenizeGo rest [])
    else tokenizeGo rest (c :: cur)

/-- Tokenizer `query.toLowerCase().split(/\s+/).filter(t => t.length > 0)` from
`searchDocuments` (and `highlightKeywords`). -/
def tokenize (query : List Char) : List (List Char) :=
  tokenizeGo (query.map jsToLower) []

/-- Offset of the leftmost occurrence of `term` as a literal substring of `l`
(`none` if there is none).  This is the search performed by one successful
`regex.exec` call for a metacharacter-free term: the regex engine tries each
start position from `lastIndex` upward.  An empty term matches everywhere,
including at the very end of the string, exactly as the empty regex does. -/
def firstOcc (term : List Char) : List Char → Option Nat
  | [] => if term.isEmpty then some 0 else none
  | c :: rest =>
    if term.isPrefixOf (c :: rest) then some 0
    else (firstOcc term rest).map (· + 1)

/-- The `while ((match = regex.exec(content)) !== null)` loop of
`searchDocuments` for a literal term: record each match index and resume the
scan at `match.index + term.length` (the regex `lastIndex` after a match).
The loop is indexed by fuel because the JS loop itself need not terminate:
when the regex matches the empty string `lastIndex` never advances (see the
`starAExecGo` model).  For the nonempty literal terms produced by `tokenize`,
`content.length + 1` iterations always suffice (`execPosGo_fuel_enough`). -/
def execPosGo (content term : List Char) : Nat → Nat → List Nat
  | 0, _ => []
  | fuel + 1, lastIndex =>
    match firstOcc term (content.drop lastIndex) with
    | none => []
    | some k => (lastIndex + k) :: execPosGo content term fuel (lastIndex + k + term.length)

/-- All match indices of the global-regex scan of `content` for a term, in
discovery order.  This embeds the lines 46-51 exec loop exactly for terms
free of regex metacharacters (`isRegexMeta`), for which the compiled pattern
is a literal matcher; for a term containing a metacharacter the source's
regex interpretation differs from this literal scan (it can match other
text, throw, or loop forever — see `dotExecPositions`, `starAExecGo` and
claims C2, C3, C4), so every theorem whose content depends on match
semantics carries the metacharacter-free hypothesis. -/
def execAllPositions (content term : List Char) : List Nat :=
  execPosGo content term (content.length + 1) 0

/-- Document record from `src/types.ts` (`DocumentFile`). -/
structure DocumentFile where
  id : String
  name : String
  content : List Char
  size : Nat
  type : String
  uploadDate : Nat
deriving DecidableEq

/-- Tag record (`DocumentTag` in `src/utils/searchService.ts`). -/
structure DocumentTag where
  id : String
  name : String
  color : String
deriving DecidableEq

/-- Result record (`SearchResult` in `src/utils/searchService.ts`).  The
relevance score is a JS number; the values produced by the score formula are
modelled exactly as rationals. -/
structure SearchResult where
  docId : String
  docName : String
  matchCount : Nat
  snippets : List (List Char)
  relevanceScore : ℚ
deriving DecidableEq

/-- The `localStorage` records `doc_tags_<docId>` holding the JSON-encoded tag
list of each document, after parsing: a map from document id to its tag list
(absent key = empty list). -/
def TagStore : Type := String → List DocumentTag

/-- Embeds `SearchService.getDocumentTags`: read and parse `doc_tags_<docId>`,
defaulting to the empty list. -/
def getDocumentTags (store : TagStore) (docId : String) : List DocumentTag :=
  store docId

/-- Write the tag list of one document (`localStorage.setItem` of the
JSON-encoded list under `doc_tags_<docId>`). -/
def setDocumentTags (store : TagStore) (docId : String) (tags : List DocumentTag) : TagStore :=
  fun k => if k = docId then tags else store k

/-- Embeds `SearchService.tagDocument`: append the tag and write back unless a tag
with the same id is already present (in which case nothing is written). -/
def tagDocument (store : TagStore) (docId : String) (tag : DocumentTag) : TagStore :=
  let tags := getDocumentTags store docId
  match tags.find? (fun t => t.id == tag.id) with
  | some _ => store
  | none => setDocumentTags store docId (tags ++ [tag])

/-- Embeds `SearchService.untagDocument`: write back the list with every tag of the
given id removed. -/
def untagDocument (store : TagStore) (docId : String) (tagId : String) : TagStore :=
  setDocumentTags store docId ((getDocumentTags store docId).filter (fun t => !(t.id == tagId)))

/-- The empty `localStorage`: no document has recorded tags. -/
def emptyStore : TagStore := fun _ => []

/-- One call against the tag store, for stating the C9 invariant over
arbitrary operation sequences. -/
inductive TagOp where
  | tag (docId : String) (t : DocumentTag)
  | untag (docId : String) (tagId : String)

/-- Run one tag-store operation. -/
def applyTagOp (store : TagStore) : TagOp → TagStore
  | TagOp.tag docId t => tagDocument store docId t
  | TagOp.untag docId tagId => untagDocument store docId tagId

/-- Run a sequence of tag-store operations, first to last. -/
def applyTagOps (ops : List TagOp) (store : TagStore) : TagStore :=
  ops.foldl applyTagOp store

/-- The three-dot padding `"..."` wrapped around each snippet. -/
def dots : List Char := ['.', '.', '.']

/-- Trimmed candidate text for one match position in
`SearchService.extractSnippets`: the window of `snippetLength` characters
centred on the offset, padded by 20 on each side and clamped to the document
bounds, then whitespace-trimmed.  `Math.max(0, a - b)` on the clamped JS
numbers coincides with truncated `Nat` subtraction `a - b`, and
`text.substring(lo, hi)` with `lo ≤ hi` is `(text.take hi).drop lo`. -/
def snippetCandidate (text : List Char) (snippetLength pos : Nat) : List Char :=
  let start := pos - snippetLength / 2
  let stop := min text.length (pos + snippetLength / 2)
  jsTrim ((text.take (min text.length (stop + 20))).drop (start - 20))

/-- One iteration of the `forEach` body of `SearchService.extractSnippets`:
drop an empty-after-trim candidate, otherwise wrap it as `"...text..."` and
insert it into the `Set`, which keeps first-insertion order and suppresses
duplicates. -/
def snipStep (text : List Char) (snippetLength : Nat) (snippets : List (List Char)) (pos : Nat) :
    List (List Char) :=
  let snippet := snippetCandidate text snippetLength pos
  if snippet.length > 0 then
    let wrapped := dots ++ snippet ++ dots
    if wrapped ∈ snippets then snippets else snippets ++ [wrapped]
  else snippets

/-- Embeds `SearchService.extractSnippets`: consider only the first 3 match
positions (`positions.slice(0, maxSnippets)`), run `snipStep` on each, and
return the accumulated set as a list in insertion order. -/
def extractSnippets (text : List Char) (positions : List Nat) (snippetLength : Nat) :
    List (List Char) :=
  let maxSnippets := 3
  (positions.take maxSnippets).foldl (snipStep text snippetLength) []

/-- Duplicate collapsing with a seen-set accumulator: an element already in
`seen` is dropped, a new element is kept and recorded, so each distinct
element survives exactly once, at the place of its first insertion. -/
def dedupKeepFirstGo (seen : List (List Char)) : List (List Char) → List (List Char)
  | [] => []
  | a :: l =>
    if a ∈ seen then dedupKeepFirstGo seen l
    else a :: dedupKeepFirstGo (seen ++ [a]) l

/-- Duplicate snippet texts collapsed to a single entry with first-insertion
order preserved — the order/dedup behaviour of the JS `Set` that claim C8
describes. -/
def dedupKeepFirst (l : List (List Char)) : List (List Char) :=
  dedupKeepFirstGo [] l

/-- The match positions accumulated for one document: the
`queryTerms.forEach` loop pushes, term by term, every match index of the
global-regex scan of the lower-cased content.  The loop increments
`matchCount` exactly when it pushes a position, so `matchCount` is the length
of this list.  Like `execAllPositions`, this embeds the source exactly for
queries whose tokenized terms are all metacharacter-free; theorems whose
content depends on match semantics (C6, C10) are stated under that
hypothesis, and the counterexamples to their unrestricted forms go through
the faithful metacharacter models. -/
def docMatchPositions (queryTerms : List (List Char)) (content : List Char) : List Nat :=
  (queryTerms.map (fun term => execAllPositions content term)).flatten

/-- Relevance score of `searchDocuments`:
`Math.min(100, (matchCount / queryTerms.length) * 25)`. -/
def relevanceScore (matchCount termCount : Nat) : ℚ :=
  min 100 ((matchCount : ℚ) / (termCount : ℚ) * 25)

/-- Tag-filter test of `searchDocuments`: with a nonempty `tags` argument the
document is skipped unless one of its stored tags has a name listed in
`tags`. -/
def tagSkip (store : TagStore) (tags : Option (List String)) (doc : DocumentFile) : Bool :=
  match tags with
  | none => false
  | some ts =>
    decide (0 < ts.length) && !(ts.any (fun tag => (getDocumentTags store doc.id).any (fun dt => dt.name == tag)))

/-- The `documents.forEach` body of `searchDocuments` for one document:
skip on a failing tag filter, scan the lower-cased content for every query
term, and push a `SearchResult` exactly when the match count is positive. -/
def searchDoc (store : TagStore) (queryTerms : List (List Char)) (tags : Option (List String))
    (doc : DocumentFile) : List SearchResult :=
  if tagSkip store tags doc then []
  else
    let content := doc.content.map jsToLower
    let matchPositions := docMatchPositions queryTerms content
    let matchCount := matchPositions.length
    if 0 < matchCount then
      [{ docId := doc.id, docName := doc.name, matchCount := matchCount,
         snippets := extractSnippets doc.content matchPositions 150,
         relevanceScore := relevanceScore matchCount queryTerms.length }]
    else []

/-- The `documents.forEach` loop of `searchDocuments`: each document appends
its `SearchResult` (if any) to `results`, so the emitted sequence is the
concatenation, in input-collection order, of the per-document contributions. -/
def searchLoop (store : TagStore) (queryTerms : List (List Char)) (tags : Option (List String)) :
    List DocumentFile → List SearchResult
  | [] => []
  | doc :: rest => searchDoc store queryTerms tags doc ++ searchLoop store queryTerms tags rest

/-- Comparator of the final `results.sort((a, b) => b.relevanceScore -
a.relevanceScore)`: `a` may stay before `b` iff the comparator is `≤ 0`. -/
def scoreLE (a b : SearchResult) : Bool :=
  decide (b.relevanceScore ≤ a.relevanceScore)

/-- Embeds `SearchService.searchDocuments`.  `Array.prototype.sort` is required to be
stable (ES2019), which `List.mergeSort` models. -/
def searchDocuments (store : TagStore) (documents : List DocumentFile) (query : List Char)
    (tags : Option (List String)) : List SearchResult :=
  if (jsTrim query).isEmpty then []
  else List.mergeSort (searchLoop store (tokenize query) tags documents) scoreLE

/-- Occurrence counter following the wording of claim C6: scan the content
left to right; at a position where the term occurs, count one occurrence and
resume immediately after the end of the match (the second argument is the
number of characters still to be skipped); otherwise step one character. -/
def countOccAux (term : List Char) : List Char → Nat → Nat
  | [], _ => 0
  | c :: rest, 0 =>
    if term.isPrefixOf (c :: rest) then 1 + countOccAux term rest (term.length - 1)
    else countOccAux term rest 0
  | _ :: rest, skip + 1 => countOccAux term rest skip

/-- Number of occurrences of `term` in `content` under the left-to-right
resume-after-match scan described by claim C6. -/
def countOccurrences (term content : List Char) : Nat :=
  countOccAux term content 0

/-- Number of distinct terms in the tokenized query, repeated terms not
counted twice — the term count that claim C1 says feeds the score formula. -/
def distinctTermCount (query : List Char) : Nat :=
  ((tokenize query).dedup).length

/-- Model of the ECMAScript regex scan the source actually performs when the
query term is the single metacharacter `.` : the compiled pattern
`new RegExp(".", 'g')` matches any character other than a line terminator, so
the exec loop records every such character position.  (Line terminators: LF,
CR, U+2028, U+2029.) -/
def dotExecGo : List Char → Nat → List Nat
  | [], _ => []
  | c :: rest, i =>
    if c.toNat = 10 || c.toNat = 13 || c.toNat = 8232 || c.toNat = 8233 then dotExecGo rest (i + 1)
    else i :: dotExecGo rest (i + 1)

/-- Match indices of the global scan of `new RegExp(".", 'g')` over the
content (see `dotExecGo`). -/
def dotExecPositions (content : List Char) : List Nat :=
  dotExecGo content 0

/-- The canonical result record emitted for a document (when it is emitted):
the record pushed by the `forEach` body of `searchDocuments`. -/
def docResult (queryTerms : List (List Char)) (doc : DocumentFile) : SearchResult :=
  { docId := doc.id, docName := doc.name,
    matchCount := (docMatchPositions queryTerms (doc.content.map jsToLower)).length,
    snippets := extractSnippets doc.content
      (docMatchPositions queryTerms (doc.content.map jsToLower)) 150,
    relevanceScore := relevanceScore
      (docMatchPositions queryTerms (doc.content.map jsToLower)).length queryTerms.length }

/-- Invariant of claim C9: in every document's stored tag list the tag ids
are pairwise distinct. -/
def tagIdsNodup (store : TagStore) : Prop :=
  ∀ docId, ((store docId).map (fun t => t.id)).Nodup

/-- Concrete document used by the witnesses: content `"ab"`. -/
def sampleDoc : DocumentFile :=
  { id := "d1", name := "doc1", content := ['a', 'b'], size := 2, type := "text/plain",
    uploadDate := 0 }

/-- Concrete document used by the counterexample to claim C1: content `"a"`. -/
def cexDoc : DocumentFile :=
  { id := "d1", name := "doc1", content := ['a'], size := 1, type := "text/plain",
    uploadDate := 0 }

/-- Concrete document used by the witness for claim C6: content `"aa b"`. -/
def sumDoc : DocumentFile :=
  { id := "d2", name := "doc2", content := ['a', 'a', ' ', 'b'], size := 4, type := "text/plain",
    uploadDate := 0 }

/-- Model of the ECMAScript exec loop the source runs when the query term is
`a*`: the compiled pattern matches at every position, consuming the maximal
run of `a`s, and `exec` sets `lastIndex` to the end of the match — so after a
zero-length match `lastIndex` does not advance and the
`while ((match = regex.exec(content)) !== null)` loop never exits.  The fuel
argument counts loop iterations; `none` means the loop is still running when
the fuel runs out. -/
def starAExecGo (content : List Char) : Nat → Nat → Option (List Nat)
  | 0, _ => none
  | fuel + 1, lastIndex =>
    let len := ((content.drop lastIndex).takeWhile (fun c => c = 'a')).length
    (starAExecGo content fuel (lastIndex + len)).map (lastIndex :: ·)

/-! Lemmas about the character classes, trimming and tokenisation. -/

theorem jsToLower_of_ws {c : Char} (h : jsWs c = true) : jsToLower c = c := by
  unfold jsToLower
  rw [if_neg]
  simp only [jsWs, Bool.or_eq_true, decide_eq_true_eq] at h
  simp only [Bool.and_eq_true, decide_eq_true_eq, not_and]
  omega

theorem tokenizeGo_all_ws :
    ∀ (l cur : List Char), (∀ c ∈ l, jsWs c = true) →
      tokenizeGo l cur = if cur.isEmpty then [] else [cur.reverse]
  | [], _, _ => rfl
  | a :: rest, cur, h => by
    have hrest : ∀ c ∈ rest, jsWs c = true := fun c hc => h c (List.mem_cons_of_mem a hc)
    unfold tokenizeGo
    rw [if_pos (h a (List.mem_cons_self a rest))]
    by_cases hc : cur.isEmpty
    · rw [if_pos hc, if_pos hc, tokenizeGo_all_ws rest [] hrest]; rfl
    · rw [if_neg hc, if_neg hc, tokenizeGo_all_ws rest [] hrest]; rfl

theorem tokenize_eq_nil_of_ws {q : List Char} (h : ∀ c ∈ q, jsWs c = true) :
    tokenize q = [] := by
  unfold tokenize
  rw [tokenizeGo_all_ws]
  · rfl
  · intro c hc
    rcases List.mem_map.mp hc with ⟨a, ha, rfl⟩
    rw [jsToLower_of_ws (h a ha)]
    exact h a ha

theorem mem_tokenizeGo :
    ∀ (l cur : List Char), (∀ c ∈ cur, jsWs c = false) →
      ∀ t ∈ tokenizeGo l cur, t ≠ [] ∧ ∀ c ∈ t, jsWs c = false
  | [], cur, hcur, t, ht => by
    unfold tokenizeGo at ht
    by_cases hc : cur.isEmpty
    · rw [if_pos hc] at ht
      exact absurd ht (List.not_mem_nil t)
    · rw [if_neg hc] at ht
      rw [List.mem_singleton] at ht
      subst ht
      refine ⟨?_, fun c hcm => hcur c (List.mem_reverse.mp hcm)⟩
      simp only [ne_eq, List.reverse_eq_nil_iff]
      intro hnil
      rw [hnil] at hc
      exact hc rfl
  | a :: rest, cur, hcur, t, ht => by
    unfold tokenizeGo at ht
    by_cases hws : jsWs a
    · rw [if_pos hws] at ht
      by_cases hc : cur.isEmpty
      · rw [if_pos hc] at ht
        exact mem_tokenizeGo rest [] (by intro c hcm; exact absurd hcm (List.not_mem_nil c)) t ht
      · rw [if_neg hc] at ht
        rcases List.mem_cons.mp ht with h | h
        · subst h
          refine ⟨?_, fun c hcm => hcur c (List.mem_reverse.mp hcm)⟩
          simp only [ne_eq, List.reverse_eq_nil_iff]
          intro hnil
          rw [hnil] at hc
          exact hc rfl
        · exact mem_tokenizeGo rest [] (by intro c hcm; exact absurd hcm (List.not_mem_nil c)) t h
    · rw [if_neg hws] at ht
      refine mem_tokenizeGo rest (a :: cur) ?_ t ht
      intro c hcm
      rcases List.mem_cons.mp hcm with h | h
      · subst h
        exact Bool.not_eq_true (jsWs c) ▸ hws
      · exact hcur c h

theorem mem_tokenize {q t} (ht : t ∈ tokenize q) :
    t ≠ [] ∧ ∀ c ∈ t, jsWs c = false :=
  mem_tokenizeGo _ [] (by intro c hcm; exact absurd hcm (List.not_mem_nil c)) t ht

theorem ws_of_jsTrim_eq_nil {l : List Char} (h : jsTrim l = []) :
    ∀ c ∈ l, jsWs c = true := by
  unfold jsTrim at h
  rw [List.reverse_eq_nil_iff, List.dropWhile_eq_nil_iff] at h
  intro c hc
  have hsplit := List.takeWhile_append_dropWhile (fun c => jsWs c) l
  rw [← hsplit] at hc
  rcases List.mem_append.mp hc with hmem | hmem
  · exact List.mem_takeWhile_imp hmem
  · exact h c (List.mem_reverse.mpr hmem)

theorem jsTrim_ne_nil {l : List Char} {c : Char} (hc : c ∈ l) (hw : jsWs c = false) :
    jsTrim l ≠ [] := by
  intro h
  rw [ws_of_jsTrim_eq_nil h c hc] at hw
  exact Bool.noConfusion hw

/-! Lemmas about the literal matcher and the occurrence counter. -/

theorem firstOcc_nil (term : List Char) :
    firstOcc term [] = if term.isEmpty then some 0 else none := rfl

theorem firstOcc_cons (term : List Char) (c : Char) (rest : List Char) :
    firstOcc term (c :: rest) =
      if term.isPrefixOf (c :: rest) then some 0 else (firstOcc term rest).map (· + 1) := rfl

theorem countOccAux_cons_zero (term : List Char) (c : Char) (rest : List Char) :
    countOccAux term (c :: rest) 0 =
      if term.isPrefixOf (c :: rest) then 1 + countOccAux term rest (term.length - 1)
      else countOccAux term rest 0 := rfl

theorem execPosGo_succ (content term : List Char) (fuel lastIndex : Nat) :
    execPosGo content term (fuel + 1) lastIndex =
      match firstOcc term (content.drop lastIndex) with
      | none => []
      | some k => (lastIndex + k) :: execPosGo content term fuel (lastIndex + k + term.length) := rfl

theorem countOccAux_eq_drop {term : List Char} :
    ∀ (l : List Char) (s : Nat), countOccAux term l s = countOccurrences term (l.drop s)
  | [], s => by simp [countOccAux, countOccurrences]
  | _ :: _, 0 => rfl
  | c :: rest, s + 1 => by
    show countOccAux term rest s = _
    rw [countOccAux_eq_drop rest s]
    rfl

theorem firstOcc_none_countOcc {term : List Char} :
    ∀ {l : List Char}, firstOcc term l = none → countOccurrences term l = 0
  | [], _ => rfl
  | c :: rest, h => by
    rw [firstOcc_cons] at h
    by_cases hp : term.isPrefixOf (c :: rest)
    · rw [if_pos hp] at h; exact Option.noConfusion h
    · rw [if_neg hp] at h
      have hrest : firstOcc term rest = none := by
        cases hf : firstOcc term rest with
        | none => rfl
        | some k => rw [hf] at h; exact Option.noConfusion h
      show countOccAux term (c :: rest) 0 = 0
      rw [countOccAux_cons_zero, if_neg hp]
      exact firstOcc_none_countOcc hrest

theorem countOcc_of_firstOcc {term : List Char} (hne : term ≠ []) :
    ∀ (l : List Char) (k : Nat), firstOcc term l = some k →
      countOccurrences term l = 1 + countOccurrences term (l.drop (k + term.length))
  | [], k, h => by
    rw [firstOcc_nil, if_neg (by simpa using hne)] at h
    exact Option.noConfusion h
  | c :: rest, k, h => by
    rw [firstOcc_cons] at h
    by_cases hp : term.isPrefixOf (c :: rest)
    · rw [if_pos hp] at h
      obtain rfl : 0 = k := Option.some.inj h
      show countOccAux term (c :: rest) 0 = _
      rw [countOccAux_cons_zero, if_pos hp, countOccAux_eq_drop]
      congr 1
      obtain ⟨m, hm⟩ : ∃ m, term.length = m + 1 := by
        cases term with
        | nil => exact absurd rfl hne
        | cons a as => exact ⟨as.length, rfl⟩
      rw [hm]
      simp [Nat.add_comm]
    · rw [if_neg hp] at h
      rcases Option.map_eq_some'.mp h with ⟨k', hk', rfl⟩
      show countOccAux term (c :: rest) 0 = _
      rw [countOccAux_cons_zero, if_neg hp]
      have : countOccAux term rest 0 = countOccurrences term rest := rfl
      rw [this, countOcc_of_firstOcc hne rest k' hk']
      congr 1
      rw [show k' + 1 + term.length = (k' + term.length) + 1 by omega]
      rfl

theorem firstOcc_some {term : List Char} :
    ∀ {l : List Char} {k : Nat}, firstOcc term l = some k →
      term.isPrefixOf (l.drop k) = true ∧ k + term.length ≤ l.length
  | [], k, h => by
    rw [firstOcc_nil] at h
    by_cases he : term.isEmpty
    · rw [if_pos he] at h
      obtain rfl : 0 = k := Option.some.inj h
      have hterm : term = [] := by simpa [List.isEmpty_iff] using he
      subst hterm
      simp
    · rw [if_neg he] at h
      exact Option.noConfusion h
  | c :: rest, k, h => by
    rw [firstOcc_cons] at h
    by_cases hp : term.isPrefixOf (c :: rest)
    · rw [if_pos hp] at h
      obtain rfl : 0 = k := Option.some.inj h
      refine ⟨hp, ?_⟩
      simpa using (List.isPrefixOf_iff_prefix.mp hp).length_le
    · rw [if_neg hp] at h
      rcases Option.map_eq_some'.mp h with ⟨k', hk', rfl⟩
      obtain ⟨h1, h2⟩ := firstOcc_some hk'
      refine ⟨h1, ?_⟩
      simp only [List.length_cons]
      omega

theorem length_execPosGo {content term : List Char} (hne : term ≠ []) :
    ∀ (fuel lastIndex : Nat), content.length + 1 ≤ fuel + lastIndex →
      (execPosGo content term fuel lastIndex).length =
        countOccurrences term (content.drop lastIndex)
  | 0, lastIndex, hf => by
    have hnil : content.drop lastIndex = [] := List.drop_eq_nil_iff.mpr (by omega)
    rw [hnil]
    rfl
  | fuel + 1, lastIndex, hf => by
    rw [execPosGo_succ]
    cases h : firstOcc term (content.drop lastIndex) with
    | none => rw [firstOcc_none_countOcc h]; rfl
    | some k =>
      have hlen : 1 ≤ term.length := List.length_pos.mpr hne
      rw [countOcc_of_firstOcc hne _ k h, List.drop_drop, ← Nat.add_assoc]
      simp only [List.length_cons]
      rw [length_execPosGo hne fuel (lastIndex + k + term.length) (by omega)]
      omega

theorem isPrefixOf_of_mem_execPosGo {content term : List Char} :
    ∀ {fuel lastIndex p : Nat}, p ∈ execPosGo content term fuel lastIndex →
      term.isPrefixOf (content.drop p) = true
  | 0, _, _, h => absurd h (List.not_mem_nil _)
  | fuel + 1, lastIndex, p, h => by
    rw [execPosGo_succ] at h
    cases hf : firstOcc term (content.drop lastIndex) with
    | none => rw [hf] at h; exact absurd h (List.not_mem_nil _)
    | some k =>
      rw [hf] at h
      rcases List.mem_cons.mp h with heq | hmem
      · subst heq
        have hpre := (firstOcc_some hf).1
        rw [List.drop_drop] at hpre
        exact hpre
      · exact isPrefixOf_of_mem_execPosGo hmem

theorem length_execAllPositions {content term : List Char} (hne : term ≠ []) :
    (execAllPositions content term).length = countOccurrences term content := by
  have h := @length_execPosGo content term hne (content.length + 1) 0 (by omega)
  simpa [execAllPositions] using h

theorem isPrefixOf_of_mem_execAllPositions {content term : List Char} {p : Nat}
    (h : p ∈ execAllPositions content term) : term.isPrefixOf (content.drop p) = true :=
  isPrefixOf_of_mem_execPosGo h

/-! Structural lemmas about the search pipeline. -/

theorem searchDoc_eq (store : TagStore) (queryTerms : List (List Char))
    (tags : Option (List String)) (doc : DocumentFile) :
    searchDoc store queryTerms tags doc =
      if tagSkip store tags doc then []
      else if 0 < (docMatchPositions queryTerms (doc.content.map jsToLower)).length then
        [docResult queryTerms doc]
      else [] := rfl

theorem mem_searchDoc {store : TagStore} {queryTerms : List (List Char)}
    {tags : Option (List String)} {doc : DocumentFile} {r : SearchResult}
    (h : r ∈ searchDoc store queryTerms tags doc) :
    tagSkip store tags doc = false ∧
      0 < (docMatchPositions queryTerms (doc.content.map jsToLower)).length ∧
      r = docResult queryTerms doc := by
  rw [searchDoc_eq] at h
  by_cases hskip : tagSkip store tags doc
  · rw [if_pos hskip] at h
    exact absurd h (List.not_mem_nil r)
  · rw [if_neg hskip] at h
    by_cases hpos : 0 < (docMatchPositions queryTerms (doc.content.map jsToLower)).length
    · rw [if_pos hpos] at h
      rw [List.mem_singleton] at h
      exact ⟨Bool.not_eq_true _ ▸ hskip, hpos, h⟩
    · rw [if_neg hpos] at h
      exact absurd h (List.not_mem_nil r)

theorem mem_searchLoop {store : TagStore} {queryTerms : List (List Char)}
    {tags : Option (List String)} :
    ∀ {docs : List DocumentFile} {r : SearchResult}, r ∈ searchLoop store queryTerms tags docs →
      ∃ doc ∈ docs, tagSkip store tags doc = false ∧
        0 < (docMatchPositions queryTerms (doc.content.map jsToLower)).length ∧
        r = docResult queryTerms doc
  | [], r, h => absurd h (List.not_mem_nil r)
  | doc :: rest, r, h => by
    rcases List.mem_append.mp h with hmem | hmem
    · obtain ⟨h1, h2, h3⟩ := mem_searchDoc hmem
      exact ⟨doc, List.mem_cons_self doc rest, h1, h2, h3⟩
    · obtain ⟨d, hd, hrest⟩ := mem_searchLoop hmem
      exact ⟨d, List.mem_cons_of_mem doc hd, hrest⟩

/-- With no query terms no document can match, so the loop emits nothing. -/
theorem searchLoop_nil_terms (store : TagStore) (tags : Option (List String)) :
    ∀ docs : List DocumentFile, searchLoop store [] tags docs = []
  | [] => rfl
  | doc :: rest => by
    show searchDoc store [] tags doc ++ searchLoop store [] tags rest = []
    rw [searchLoop_nil_terms store tags rest, searchDoc_eq]
    by_cases hskip : tagSkip store tags doc
    · rw [if_pos hskip]; rfl
    · rw [if_neg hskip]
      rfl

theorem mem_searchDocuments {store : TagStore} {documents : List DocumentFile}
    {query : List Char} {tags : Option (List String)} {r : SearchResult}
    (h : r ∈ searchDocuments store documents query tags) :
    r ∈ searchLoop store (tokenize query) tags documents := by
  unfold searchDocuments at h
  by_cases hq : (jsTrim query).isEmpty
  · rw [if_pos hq] at h
    exact absurd h (List.not_mem_nil r)
  · rw [if_neg hq] at h
    exact List.mem_mergeSort.mp h

/-! Lemmas about the snippet extractor. -/

theorem snipStep_cases (text : List Char) (snippetLength : Nat) (acc : List (List Char))
    (pos : Nat) :
    snipStep text snippetLength acc pos = acc ∨
      (snipStep text snippetLength acc pos =
          acc ++ [dots ++ snippetCandidate text snippetLength pos ++ dots] ∧
        0 < (snippetCandidate text snippetLength pos).length ∧
        dots ++ snippetCandidate text snippetLength pos ++ dots ∉ acc) := by
  unfold snipStep
  by_cases h1 : (snippetCandidate text snippetLength pos).length > 0
  · rw [if_pos h1]
    by_cases h2 : dots ++ snippetCandidate text snippetLength pos ++ dots ∈ acc
    · exact Or.inl (by rw [if_pos h2])
    · exact Or.inr ⟨by rw [if_neg h2], h1, h2⟩
  · exact Or.inl (by rw [if_neg h1])

theorem length_foldl_snipStep (text : List Char) (snippetLength : Nat) :
    ∀ (ps : List Nat) (acc : List (List Char)),
      (ps.foldl (snipStep text snippetLength) acc).length ≤ acc.length + ps.length
  | [], acc => Nat.le_of_eq rfl
  | p :: ps, acc => by
    rw [List.foldl_cons]
    rcases snipStep_cases text snippetLength acc p with h | ⟨h, _, _⟩ <;> rw [h]
    · have hstep := length_foldl_snipStep text snippetLength ps acc
      simp only [List.length_cons]
      omega
    · have hstep := length_foldl_snipStep text snippetLength ps
        (acc ++ [dots ++ snippetCandidate text snippetLength p ++ dots])
      simp only [List.length_append, List.length_cons, List.length_nil] at hstep
      simp only [List.length_cons]
      omega

theorem nodup_foldl_snipStep (text : List Char) (snippetLength : Nat) :
    ∀ (ps : List Nat) (acc : List (List Char)), acc.Nodup →
      (ps.foldl (snipStep text snippetLength) acc).Nodup
  | [], _, h => h
  | p :: ps, acc, h => by
    show ((ps.foldl (snipStep text snippetLength) (snipStep text snippetLength acc p))).Nodup
    refine nodup_foldl_snipStep text snippetLength ps _ ?_
    rcases snipStep_cases text snippetLength acc p with heq | ⟨heq, _, hnm⟩
    · rw [heq]; exact h
    · rw [heq]
      exact List.Nodup.append h (List.nodup_singleton _)
        (by simpa [List.disjoint_singleton] using hnm)

theorem mem_foldl_snipStep (text : List Char) (snippetLength : Nat) :
    ∀ (ps : List Nat) (acc : List (List Char)) (s : List Char),
      s ∈ ps.foldl (snipStep text snippetLength) acc →
      s ∈ acc ∨ ∃ pos ∈ ps, s = dots ++ snippetCandidate text snippetLength pos ++ dots ∧
        0 < (snippetCandidate text snippetLength pos).length
  | [], _, s, h => Or.inl h
  | p :: ps, acc, s, h => by
    rcases mem_foldl_snipStep text snippetLength ps (snipStep text snippetLength acc p) s h with
      hmem | ⟨pos, hpos, hs⟩
    · rcases snipStep_cases text snippetLength acc p with heq | ⟨heq, hlen, _⟩
      · rw [heq] at hmem; exact Or.inl hmem
      · rw [heq] at hmem
        rcases List.mem_append.mp hmem with hmem | hmem
        · exact Or.inl hmem
        · rw [List.mem_singleton] at hmem
          exact Or.inr ⟨p, List.mem_cons_self p ps, hmem, hlen⟩
    · exact Or.inr ⟨pos, List.mem_cons_of_mem p hpos, hs⟩

theorem ne_nil_foldl_snipStep (text : List Char) (snippetLength : Nat) :
    ∀ (ps : List Nat) (acc : List (List Char)), acc ≠ [] →
      ps.foldl (snipStep text snippetLength) acc ≠ []
  | [], _, h => h
  | p :: ps, acc, h => by
    refine ne_nil_foldl_snipStep text snippetLength ps _ ?_
    rcases snipStep_cases text snippetLength acc p with heq | ⟨heq, _, _⟩
    · rw [heq]; exact h
    · rw [heq]
      simp

theorem dedupKeepFirstGo_cons (seen : List (List Char)) (a : List Char)
    (l : List (List Char)) :
    dedupKeepFirstGo seen (a :: l) =
      if a ∈ seen then dedupKeepFirstGo seen l
      else a :: dedupKeepFirstGo (seen ++ [a]) l := rfl

/-- The one-pass fold of `extractSnippets` equals the staged pipeline: map
the considered offsets to trimmed candidates, drop the empty ones, wrap the
rest, and collapse duplicates keeping first-insertion order; the accumulator
plays the role of the seen set. -/
theorem foldl_snipStep_eq_dedup (text : List Char) (snippetLength : Nat) :
    ∀ (ps : List Nat) (acc : List (List Char)),
      ps.foldl (snipStep text snippetLength) acc =
        acc ++ dedupKeepFirstGo acc
          (((ps.map (snippetCandidate text snippetLength)).filter
              (fun c => decide (0 < c.length))).map (fun c => dots ++ c ++ dots))
  | [], acc => by simp [dedupKeepFirstGo]
  | p :: ps, acc => by
    rw [List.foldl_cons, List.map_cons]
    by_cases hc : 0 < (snippetCandidate text snippetLength p).length
    · rw [List.filter_cons_of_pos (by simpa using hc), List.map_cons, dedupKeepFirstGo_cons]
      by_cases hm : dots ++ snippetCandidate text snippetLength p ++ dots ∈ acc
      · have hstep : snipStep text snippetLength acc p = acc := by
          unfold snipStep
          rw [if_pos hc, if_pos hm]
        rw [hstep, if_pos hm]
        exact foldl_snipStep_eq_dedup text snippetLength ps acc
      · have hstep : snipStep text snippetLength acc p =
            acc ++ [dots ++ snippetCandidate text snippetLength p ++ dots] := by
          unfold snipStep
          rw [if_pos hc, if_neg hm]
        rw [hstep, if_neg hm,
          foldl_snipStep_eq_dedup text snippetLength ps
            (acc ++ [dots ++ snippetCandidate text snippetLength p ++ dots])]
        simp [List.append_assoc]
    · rw [List.filter_cons_of_neg (by simpa using hc)]
      have hstep : snipStep text snippetLength acc p = acc := by
        unfold snipStep
        rw [if_neg hc]
      rw [hstep]
      exact foldl_snipStep_eq_dedup text snippetLength ps acc

/-- The character at a considered match offset lies inside its snippet
window. -/
theorem mem_snippetWindow {text : List Char} {snippetLength pos : Nat} (hlt : pos < text.length) :
    text.get ⟨pos, hlt⟩ ∈
      (text.take (min text.length (min text.length (pos + snippetLength / 2) + 20))).drop
        (pos - snippetLength / 2 - 20) := by
  set lo := pos - snippetLength / 2 - 20 with hlo
  set hi := min text.length (min text.length (pos + snippetLength / 2) + 20) with hhi
  have hlopos : lo ≤ pos := by omega
  have hposhi : pos < hi := by omega
  have hidx : lo + (pos - lo) = pos := by omega
  have h1 : (pos - lo) < ((text.take hi).drop lo).length := by
    rw [List.length_drop, List.length_take]
    omega
  have h2 : ((text.take hi).drop lo).get ⟨pos - lo, h1⟩ = text.get ⟨pos, hlt⟩ := by
    simp only [List.get_eq_getElem, List.getElem_drop, List.getElem_take]
    congr 1
  rw [← h2]
  exact List.get_mem _ _ _

/-- A considered offset holding a non-whitespace character yields a nonempty
trimmed snippet candidate. -/
theorem snippetCandidate_pos {text : List Char} {snippetLength pos : Nat}
    (hlt : pos < text.length) (hw : jsWs (text.get ⟨pos, hlt⟩) = false) :
    0 < (snippetCandidate text snippetLength pos).length := by
  rw [List.length_pos]
  unfold snippetCandidate
  exact jsTrim_ne_nil (mem_snippetWindow hlt) hw

/-! Lemmas about the regex models for metacharacter terms. -/

theorem starAExecGo_succ (content : List Char) (fuel lastIndex : Nat) :
    starAExecGo content (fuel + 1) lastIndex =
      (starAExecGo content fuel
        (lastIndex + ((content.drop lastIndex).takeWhile (fun c => c = 'a')).length)).map
        (lastIndex :: ·) := rfl

/-! Lemmas about the tag store. -/

theorem getDocumentTags_setDocumentTags_self (store : TagStore) (docId : String)
    (tags : List DocumentTag) :
    getDocumentTags (setDocumentTags store docId tags) docId = tags := by
  unfold getDocumentTags setDocumentTags
  rw [if_pos rfl]

theorem tagDocument_of_absent {store : TagStore} {docId : String} {tag : DocumentTag}
    (h : (getDocumentTags store docId).find? (fun t => t.id == tag.id) = none) :
    tagDocument store docId tag =
      setDocumentTags store docId (getDocumentTags store docId ++ [tag]) := by
  show (match (getDocumentTags store docId).find? (fun t => t.id == tag.id) with
    | some _ => store
    | none => setDocumentTags store docId (getDocumentTags store docId ++ [tag])) = _
  rw [h]

theorem tagDocument_of_present {store : TagStore} {docId : String} {tag x : DocumentTag}
    (h : (getDocumentTags store docId).find? (fun t => t.id == tag.id) = some x) :
    tagDocument store docId tag = store := by
  show (match (getDocumentTags store docId).find? (fun t => t.id == tag.id) with
    | some _ => store
    | none => setDocumentTags store docId (getDocumentTags store docId ++ [tag])) = _
  rw [h]

theorem tagIdsNodup_tagDocument {store : TagStore} (h : tagIdsNodup store) (docId : String)
    (tag : DocumentTag) : tagIdsNodup (tagDocument store docId tag) := by
  cases hf : (getDocumentTags store docId).find? (fun t => t.id == tag.id) with
  | some x => rw [tagDocument_of_present hf]; exact h
  | none =>
    rw [tagDocument_of_absent hf]
    intro d
    show (((setDocumentTags store docId (getDocumentTags store docId ++ [tag])) d).map
      (fun t => t.id)).Nodup
    unfold setDocumentTags
    by_cases hd : d = docId
    · rw [if_pos hd]
      rw [List.map_append]
      refine List.Nodup.append (h docId) (List.nodup_singleton _) ?_
      simp only [List.map_cons, List.map_nil, List.disjoint_singleton]
      intro hmem
      rcases List.mem_map.mp hmem with ⟨x, hx, hxid⟩
      have := List.find?_eq_none.mp hf x hx
      simp only [beq_iff_eq] at this
      exact this hxid
    · rw [if_neg hd]
      exact h d

theorem tagIdsNodup_untagDocument {store : TagStore} (h : tagIdsNodup store)
    (docId tagId : String) : tagIdsNodup (untagDocument store docId tagId) := by
  intro d
  show (((setDocumentTags store docId
    ((getDocumentTags store docId).filter (fun t => !(t.id == tagId)))) d).map
      (fun t => t.id)).Nodup
  unfold setDocumentTags
  by_cases hd : d = docId
  · rw [if_pos hd]
    exact List.Nodup.sublist (List.Sublist.map _ (List.filter_sublist _)) (h docId)
  · rw [if_neg hd]
    exact h d

theorem tagIdsNodup_applyTagOps :
    ∀ (ops : List TagOp) (store : TagStore), tagIdsNodup store →
      tagIdsNodup (applyTagOps ops store)
  | [], _, h => h
  | op :: ops, store, h => by
    show tagIdsNodup (applyTagOps ops (applyTagOp store op))
    refine tagIdsNodup_applyTagOps ops _ ?_
    cases op with
    | tag docId t => exact tagIdsNodup_tagDocument h docId t
    | untag docId tid => exact tagIdsNodup_untagDocument h docId tid

theorem tagDocument_twice {store : TagStore} {docId : String} {t tdup : DocumentTag}
    (hid : tdup.id = t.id)
    (habs : ∀ x ∈ getDocumentTags store docId, (x.id == t.id) = false) :
    (getDocumentTags (tagDocument (tagDocument store docId t) docId tdup) docId).filter
      (fun x => x.id == t.id) = [t] := by
  have hf : (getDocumentTags store docId).find? (fun x => x.id == t.id) = none :=
    List.find?_eq_none.mpr (by intro x hx; rw [habs x hx]; exact Bool.false_ne_true)
  rw [tagDocument_of_absent hf]
  have hget : getDocumentTags (setDocumentTags store docId
      (getDocumentTags store docId ++ [t])) docId = getDocumentTags store docId ++ [t] :=
    getDocumentTags_setDocumentTags_self store docId _
  have hf2 : (getDocumentTags (setDocumentTags store docId
      (getDocumentTags store docId ++ [t])) docId).find? (fun x => x.id == tdup.id) =
        some t := by
    rw [hget, hid, List.find?_append]
    rw [List.find?_eq_none.mpr (by intro x hx; rw [habs x hx]; exact Bool.false_ne_true)]
    simp [List.find?]
  rw [tagDocument_of_present hf2, hget, List.filter_append]
  rw [List.filter_eq_nil_iff.mpr (by intro x hx; rw [habs x hx]; exact Bool.false_ne_true)]
  simp [List.filter]

/-! Concrete evaluations used by the witnesses. -/

theorem sampleSearch_eq :
    searchDocuments emptyStore [sampleDoc] ['a'] none =
      [docResult (tokenize ['a']) sampleDoc] := by
  unfold searchDocuments
  rw [if_neg (by decide)]
  have h : searchLoop emptyStore (tokenize ['a']) none [sampleDoc] =
      [docResult (tokenize ['a']) sampleDoc] := rfl
  rw [h, List.mergeSort_singleton]

theorem cexSearch_eq :
    searchDocuments emptyStore [cexDoc] ['a', ' ', 'a'] none =
      [docResult (tokenize ['a', ' ', 'a']) cexDoc] := by
  unfold searchDocuments
  rw [if_neg (by decide)]
  have h : searchLoop emptyStore (tokenize ['a', ' ', 'a']) none [cexDoc] =
      [docResult (tokenize ['a', ' ', 'a']) cexDoc] := rfl
  rw [h, List.mergeSort_singleton]

theorem sumSearch_eq :
    searchDocuments emptyStore [sumDoc] ['a', ' ', 'b'] none =
      [docResult (tokenize ['a', ' ', 'b']) sumDoc] := by
  unfold searchDocuments
  rw [if_neg (by decide)]
  have h : searchLoop emptyStore (tokenize ['a', ' ', 'b']) none [sumDoc] =
      [docResult (tokenize ['a', ' ', 'b']) sumDoc] := rfl
  rw [h, List.mergeSort_singleton]

theorem relevanceScore_pos {m t : Nat} (hm : 0 < m) (ht : 0 < t) :
    0 < relevanceScore m t := by
  unfold relevanceScore
  refine lt_min (by norm_num) ?_
  have hm2 : (0 : ℚ) < (m : ℚ) := by exact_mod_cast hm
  have ht2 : (0 : ℚ) < (t : ℚ) := by exact_mod_cast ht
  have := div_pos hm2 ht2
  nlinarith

/-! Claim theorems. -/

/-- C1 (amended): for every search call with at least one tokenized query
term, each emitted SearchResult's relevanceScore equals
min(100, (matchCount / termCount) * 25), where termCount is the TOTAL number
of terms in the tokenized query, counting a repeated term each time it occurs
(the source divides by `queryTerms.length`, not by the number of distinct
terms); in particular score(matchCount 4, termCount 1) = 100 and
score(matchCount 2, termCount 1) = 50. -/
theorem searchDocuments_relevanceScore_formula :
    (∀ (store : TagStore) (docs : List DocumentFile) (query : List Char)
        (tags : Option (List String)) (r : SearchResult),
        tokenize query ≠ [] → r ∈ searchDocuments store docs query tags →
        r.relevanceScore =
          min 100 ((r.matchCount : ℚ) / ((tokenize query).length : ℚ) * 25)) ∧
    relevanceScore 4 1 = 100 ∧ relevanceScore 2 1 = 50 := by
  refine ⟨?_, ?_, ?_⟩
  · intro store docs query tags r _ hr
    obtain ⟨doc, _, _, _, heq⟩ := mem_searchLoop (mem_searchDocuments hr)
    rw [heq]
    rfl
  · show min 100 ((4 : ℚ) / (1 : ℚ) * 25) = 100
    norm_num
  · show min 100 ((2 : ℚ) / (1 : ℚ) * 25) = 50
    norm_num

/-- Witness for C1 (amended) at a concrete input: one document `"ab"`, query
`"a"`, no tag filter. -/
theorem searchDocuments_relevanceScore_formula_witness :
    (docResult (tokenize ['a']) sampleDoc).relevanceScore =
      min 100 (((docResult (tokenize ['a']) sampleDoc).matchCount : ℚ) /
        ((tokenize ['a']).length : ℚ) * 25) :=
  searchDocuments_relevanceScore_formula.1 emptyStore [sampleDoc] ['a'] none
    (docResult (tokenize ['a']) sampleDoc) (by decide)
    (by rw [sampleSearch_eq]; exact List.mem_singleton_self _)

/-- C1 fails as literally stated: for the query "a a" (one DISTINCT term) and
the document "a", the source computes matchCount 2 and relevanceScore
min(100, (2 / 2) * 25) = 25, dividing by the token count with repeats, while
the claimed formula with the distinct term count 1 gives
min(100, (2 / 1) * 25) = 50. -/
theorem searchDocuments_relevanceScore_distinct_counterexample :
    ¬ (∀ r ∈ searchDocuments emptyStore [cexDoc] ['a', ' ', 'a'] none,
        r.relevanceScore =
          min 100 ((r.matchCount : ℚ) /
            (distinctTermCount ['a', ' ', 'a'] : ℚ) * 25)) := by
  intro h
  have hr := h (docResult (tokenize ['a', ' ', 'a']) cexDoc)
    (by rw [cexSearch_eq]; exact List.mem_singleton_self _)
  have hmc : (docResult (tokenize ['a', ' ', 'a']) cexDoc).matchCount = 2 := by decide
  have hdc : distinctTermCount ['a', ' ', 'a'] = 1 := by decide
  have hsc : (docResult (tokenize ['a', ' ', 'a']) cexDoc).relevanceScore =
      min 100 ((2 : ℚ) / (2 : ℚ) * 25) := rfl
  rw [hmc, hdc, hsc] at hr
  norm_num at hr

/-- C5: the result sequence of every search call is sorted by non-increasing
relevanceScore, and for each score value the results carrying it appear in
exactly the order in which the document loop emitted them — which is the
input collection order, since each document contributes at most one result —
so equal-score ties are broken stably and deterministically. -/
theorem searchDocuments_sorted_and_stable :
    ∀ (store : TagStore) (docs : List DocumentFile) (query : List Char)
      (tags : Option (List String)),
      (searchDocuments store docs query tags).Pairwise
        (fun a b => b.relevanceScore ≤ a.relevanceScore) ∧
      ∀ s : ℚ,
        (searchDocuments store docs query tags).filter
            (fun r => decide (r.relevanceScore = s)) =
          (searchLoop store (tokenize query) tags docs).filter
            (fun r => decide (r.relevanceScore = s)) := by
  intro store docs query tags
  have htrans : ∀ a b c : SearchResult,
      scoreLE a b = true → scoreLE b c = true → scoreLE a c = true := by
    intro a b c h1 h2
    simp only [scoreLE, decide_eq_true_eq] at h1 h2 ⊢
    exact le_trans h2 h1
  have htot : ∀ a b : SearchResult, (scoreLE a b || scoreLE b a) = true := by
    intro a b
    simp only [scoreLE, Bool.or_eq_true, decide_eq_true_eq]
    exact le_total b.relevanceScore a.relevanceScore
  unfold searchDocuments
  by_cases hq : (jsTrim query).isEmpty
  · rw [if_pos hq]
    refine ⟨List.Pairwise.nil, ?_⟩
    intro s
    have htok : tokenize query = [] :=
      tokenize_eq_nil_of_ws (ws_of_jsTrim_eq_nil (List.isEmpty_iff.mp hq))
    rw [htok, searchLoop_nil_terms]
  · rw [if_neg hq]
    constructor
    · refine (List.sorted_mergeSort htrans htot _).imp ?_
      intro a b hab
      simpa [scoreLE] using hab
    · intro s
      set l := searchLoop store (tokenize query) tags docs with hl
      set p : SearchResult → Bool := fun r => decide (r.relevanceScore = s) with hp
      have hpc : (l.filter p).Pairwise (fun a b => scoreLE a b = true) := by
        refine List.pairwise_of_forall_mem_list ?_
        intro a ha b hb
        have ha2 : p a = true := (List.mem_filter.mp ha).2
        have hb2 : p b = true := (List.mem_filter.mp hb).2
        rw [hp] at ha2 hb2
        simp only [decide_eq_true_eq] at ha2 hb2
        simp only [scoreLE, decide_eq_true_eq, ha2, hb2]
        exact le_refl s
      have hsub := List.sublist_mergeSort htrans htot hpc (List.filter_sublist l)
      have hself : (l.filter p).filter p = l.filter p :=
        List.filter_eq_self.mpr (fun a ha => (List.mem_filter.mp ha).2)
      have hsub2 : (l.filter p).Sublist ((l.mergeSort scoreLE).filter p) :=
        hself ▸ hsub.filter p
      have hlen : ((l.mergeSort scoreLE).filter p).length = (l.filter p).length :=
        ((List.mergeSort_perm l scoreLE).filter p).length_eq
      exact (hsub2.eq_of_length hlen.symm).symm

/-- C6 (amended): for every query all of whose tokenized terms are free of
regex metacharacters — so that each compiled pattern is a literal matcher —
each emitted result's matchCount is the sum, over the tokenized query terms,
of the occurrence counts produced by a left-to-right scan of the lower-cased
content that resumes immediately after the end of each match; in particular
the content "aa" contributes 2 occurrences of the term "a".  (For a
metacharacter term the source's regex count differs from the literal
occurrence count — see `searchDocuments_matchCount_sum_counterexample`.) -/
theorem searchDocuments_matchCount_sum :
    (∀ (store : TagStore) (docs : List DocumentFile) (query : List Char)
        (tags : Option (List String)) (r : SearchResult),
        (∀ term ∈ tokenize query, ∀ c ∈ term, isRegexMeta c = false) →
        r ∈ searchDocuments store docs query tags →
        ∃ doc ∈ docs, r.docId = doc.id ∧
          r.matchCount =
            ((tokenize query).map
              (fun term => countOccurrences term (doc.content.map jsToLower))).sum) ∧
    countOccurrences ['a'] ['a', 'a'] = 2 := by
  constructor
  · intro store docs query tags r _ hr
    obtain ⟨doc, hdoc, _, _, heq⟩ := mem_searchLoop (mem_searchDocuments hr)
    refine ⟨doc, hdoc, by rw [heq]; rfl, ?_⟩
    rw [heq]
    show (docMatchPositions (tokenize query) (doc.content.map jsToLower)).length = _
    unfold docMatchPositions
    rw [List.length_flatten, List.map_map]
    refine congrArg List.sum (List.map_congr_left ?_)
    intro term hterm
    exact length_execAllPositions (mem_tokenize hterm).1
  · decide

/-- Witness for C6 at a concrete input: document "aa b", query "a b": the
matchCount is 2 + 1 = 3, the sum of the per-term occurrence counts. -/
theorem searchDocuments_matchCount_sum_witness :
    ∃ doc ∈ [sumDoc], (docResult (tokenize ['a', ' ', 'b']) sumDoc).docId = doc.id ∧
      (docResult (tokenize ['a', ' ', 'b']) sumDoc).matchCount =
        ((tokenize ['a', ' ', 'b']).map
          (fun term => countOccurrences term (doc.content.map jsToLower))).sum :=
  searchDocuments_matchCount_sum.1 emptyStore [sumDoc] ['a', ' ', 'b'] none
    (docResult (tokenize ['a', ' ', 'b']) sumDoc) (by decide)
    (by rw [sumSearch_eq]; exact List.mem_singleton_self _)

/-- C6 fails as literally stated: for the query term "." against the
lower-cased content "xyz" the source's exec loop is the regex dot scan
(`dotExecPositions`, faithful ECMAScript semantics), which records a match at
every position — so the emitted matchCount is 3 — while the claim's sum of
left-to-right literal occurrence counts of the tokenized terms is 0, since
"xyz" contains no literal dot. -/
theorem searchDocuments_matchCount_sum_counterexample :
    tokenize ['.'] = [['.']] ∧
      (dotExecPositions (['x', 'y', 'z'].map jsToLower)).length = 3 ∧
      ((tokenize ['.']).map
        (fun term => countOccurrences term (['x', 'y', 'z'].map jsToLower))).sum = 0 ∧
      (dotExecPositions (['x', 'y', 'z'].map jsToLower)).length ≠
        ((tokenize ['.']).map
          (fun term => countOccurrences term (['x', 'y', 'z'].map jsToLower))).sum := by
  refine ⟨by decide, by decide, by decide, by decide⟩

/-- C7: a query that is empty or all whitespace makes `searchDocuments`
return the empty result sequence at once, with a result that does not depend
on the tag store in any way (the extensional rendering of "without reading
the Tag Store or scanning any document content"); and an emitted result never
carries matchCount = 0 (zero-match documents are filtered out, not scored). -/
theorem searchDocuments_empty_query_and_no_zero_match :
    (∀ (store altStore : TagStore) (docs : List DocumentFile) (query : List Char)
        (tags : Option (List String)), jsTrim query = [] →
        searchDocuments store docs query tags = [] ∧
        searchDocuments store docs query tags = searchDocuments altStore docs query tags) ∧
    (∀ (store : TagStore) (docs : List DocumentFile) (query : List Char)
        (tags : Option (List String)) (r : SearchResult),
        r ∈ searchDocuments store docs query tags → 0 < r.matchCount) := by
  constructor
  · intro store altStore docs query tags hq
    have hempty : ∀ st : TagStore, searchDocuments st docs query tags = [] := by
      intro st
      unfold searchDocuments
      rw [if_pos (by rw [hq]; rfl)]
    rw [hempty store, hempty altStore]
    exact ⟨rfl, rfl⟩
  · intro store docs query tags r hr
    obtain ⟨doc, _, _, hpos, heq⟩ := mem_searchLoop (mem_searchDocuments hr)
    rw [heq]
    exact hpos

/-- Witness for C7 at a concrete input: the single-space query returns no
results on a nonempty collection, independently of the store, and the sample
search's result has a positive matchCount. -/
theorem searchDocuments_empty_query_and_no_zero_match_witness :
    searchDocuments emptyStore [sampleDoc] [' '] none = [] ∧
      0 < (docResult (tokenize ['a']) sampleDoc).matchCount :=
  ⟨(searchDocuments_empty_query_and_no_zero_match.1 emptyStore
      (fun _ => [⟨"t", "x", "#fff"⟩]) [sampleDoc] [' '] none (by decide)).1,
    searchDocuments_empty_query_and_no_zero_match.2 emptyStore [sampleDoc] ['a'] none
      (docResult (tokenize ['a']) sampleDoc)
      (by rw [sampleSearch_eq]; exact List.mem_singleton_self _)⟩

/-- C8: for every content string, offset sequence and snippet length the
extractor returns at most 3 snippets; they are pairwise distinct (duplicate
texts collapse into the first-inserted copy); only the first 3 offsets are
ever considered; every returned snippet is "..." ++ trimmed window ++ "..."
for one of those first 3 offsets whose window trims to nonempty text — an
empty-after-trim candidate is dropped without backfilling from later
offsets; and the returned list is exactly the staged pipeline "first 3
offsets, trimmed candidates, empty ones dropped, wrapped, duplicates
collapsed keeping first-insertion order", which pins the output order to the
insertion order. -/
theorem extractSnippets_spec :
    ∀ (text : List Char) (positions : List Nat) (snippetLength : Nat),
      (extractSnippets text positions snippetLength).length ≤ 3 ∧
      (extractSnippets text positions snippetLength).Nodup ∧
      extractSnippets text (positions.take 3) snippetLength =
        extractSnippets text positions snippetLength ∧
      (∀ s ∈ extractSnippets text positions snippetLength,
        ∃ pos ∈ positions.take 3,
          s = dots ++ snippetCandidate text snippetLength pos ++ dots ∧
          0 < (snippetCandidate text snippetLength pos).length) ∧
      extractSnippets text positions snippetLength =
        dedupKeepFirst ((((positions.take 3).map (snippetCandidate text snippetLength)).filter
          (fun c => decide (0 < c.length))).map (fun c => dots ++ c ++ dots)) := by
  intro text positions snippetLength
  refine ⟨?_, ?_, ?_, ?_, ?_⟩
  · have h1 := length_foldl_snipStep text snippetLength (positions.take 3) []
    have h2 : (positions.take 3).length ≤ 3 := List.length_take_le 3 positions
    show (((positions.take 3).foldl (snipStep text snippetLength) [])).length ≤ 3
    simp only [List.length_nil] at h1
    omega
  · exact nodup_foldl_snipStep text snippetLength _ [] List.nodup_nil
  · show (((positions.take 3).take 3).foldl (snipStep text snippetLength) []) =
      ((positions.take 3).foldl (snipStep text snippetLength) [])
    rw [List.take_take]
    norm_num
  · intro s hs
    rcases mem_foldl_snipStep text snippetLength _ [] s hs with h | h
    · exact absurd h (List.not_mem_nil s)
    · exact h
  · show ((positions.take 3).foldl (snipStep text snippetLength) []) = _
    rw [foldl_snipStep_eq_dedup text snippetLength (positions.take 3) []]
    rw [List.nil_append]
    rfl

/-- Witness for C8 at a concrete input: content "ab", single offset 0. -/
theorem extractSnippets_spec_witness :
    ∃ pos ∈ [0].take 3,
      dots ++ snippetCandidate ['a', 'b'] 150 0 ++ dots =
        dots ++ snippetCandidate ['a', 'b'] 150 pos ++ dots ∧
      0 < (snippetCandidate ['a', 'b'] 150 pos).length :=
  (extractSnippets_spec ['a', 'b'] [0] 150).2.2.2.1
    (dots ++ snippetCandidate ['a', 'b'] 150 0 ++ dots) (by decide)

/-- C9: tag addition is idempotent — adding a tag and then any tag bearing
the same id leaves the document's stored list with exactly one tag of that
id, namely the first copy (the second call is a no-op); and after any
sequence of tagDocument/untagDocument calls starting from the empty store,
the tag ids within each document's list are pairwise distinct. -/
theorem tagDocument_idempotent_and_ids_distinct :
    (∀ (store : TagStore) (docId : String) (t tdup : DocumentTag), tdup.id = t.id →
      (∀ x ∈ getDocumentTags store docId, (x.id == t.id) = false) →
      (getDocumentTags (tagDocument (tagDocument store docId t) docId tdup) docId).filter
        (fun x => x.id == t.id) = [t]) ∧
    (∀ (ops : List TagOp) (docId : String),
      ((getDocumentTags (applyTagOps ops emptyStore) docId).map (fun t => t.id)).Nodup) := by
  constructor
  · intro store docId t tdup hid habs
    exact tagDocument_twice hid habs
  · intro ops docId
    exact tagIdsNodup_applyTagOps ops emptyStore (fun _ => List.nodup_nil) docId

/-- Witness for C9 at a concrete input: the tag id "t1" is added twice (with
different names) to document "d1" of the empty store; exactly the first copy
remains. -/
theorem tagDocument_idempotent_witness :
    (getDocumentTags (tagDocument (tagDocument emptyStore "d1"
        { id := "t1", name := "finance", color := "#f00" }) "d1"
        { id := "t1", name := "money", color := "#0f0" }) "d1").filter
      (fun x => x.id == "t1") =
      [{ id := "t1", name := "finance", color := "#f00" }] :=
  tagDocument_idempotent_and_ids_distinct.1 emptyStore "d1"
    { id := "t1", name := "finance", color := "#f00" }
    { id := "t1", name := "money", color := "#0f0" } rfl
    (fun x hx => absurd hx (List.not_mem_nil x))

/-- C10 (implicit, amended): for every query all of whose tokenized terms
are free of regex metacharacters — so that each compiled pattern is a
literal matcher — every emitted SearchResult has a nonempty snippets list:
the window around the first recorded match survives trimming because the
matched position holds a character of the matched term, hence a
non-whitespace character; consequently every emitted result also has
matchCount ≥ 1 and relevanceScore > 0.  Charwise lower-casing never changes
the string length in this model (`List.length_map`), which is exactly the
spec's ASCII-safe proviso under which the claim is stated.  (For a
metacharacter term the regex can match a whitespace character and the
emitted snippets list can be empty — see
`searchDocuments_results_nonempty_snippets_counterexample`.) -/
theorem searchDocuments_results_nonempty_snippets :
    ∀ (store : TagStore) (docs : List DocumentFile) (query : List Char)
      (tags : Option (List String)) (r : SearchResult),
      (∀ term ∈ tokenize query, ∀ c ∈ term, isRegexMeta c = false) →
      r ∈ searchDocuments store docs query tags →
      r.snippets ≠ [] ∧ 1 ≤ r.matchCount ∧ 0 < r.relevanceScore := by
  intro store docs query tags r _ hr
  obtain ⟨doc, hdoc, hskip, hpos, heq⟩ := mem_searchLoop (mem_searchDocuments hr)
  obtain ⟨p0, ps, hps⟩ : ∃ p0 ps,
      docMatchPositions (tokenize query) (doc.content.map jsToLower) = p0 :: ps := by
    cases hcase : docMatchPositions (tokenize query) (doc.content.map jsToLower) with
    | nil => rw [hcase] at hpos; simp at hpos
    | cons a l => exact ⟨a, l, rfl⟩
  have hp0 : p0 ∈ docMatchPositions (tokenize query) (doc.content.map jsToLower) := by
    rw [hps]
    exact List.mem_cons_self _ _
  obtain ⟨lterm, hlterm, hpia⟩ : ∃ term ∈ tokenize query,
      p0 ∈ execAllPositions (doc.content.map jsToLower) term := by
    unfold docMatchPositions at hp0
    rcases List.mem_flatten.mp hp0 with ⟨piece, hpiece, hmem⟩
    rcases List.mem_map.mp hpiece with ⟨term, hterm, rfl⟩
    exact ⟨term, hterm, hmem⟩
  obtain ⟨htne, htnws⟩ := mem_tokenize hlterm
  have hpre := isPrefixOf_of_mem_execAllPositions hpia
  obtain ⟨c0, trest, rfl⟩ : ∃ c0 trest, lterm = c0 :: trest := by
    cases lterm with
    | nil => exact absurd rfl htne
    | cons a l => exact ⟨a, l, rfl⟩
  rw [List.isPrefixOf_iff_prefix] at hpre
  have hdroplen := hpre.length_le
  rw [List.length_drop, List.length_map] at hdroplen
  simp only [List.length_cons] at hdroplen
  have hp0lt : p0 < doc.content.length := by omega
  obtain ⟨tail, htail⟩ := hpre
  have hhead : ((doc.content.map jsToLower).drop p0).head? = some c0 := by
    rw [← htail]
    rfl
  rw [List.head?_drop, List.getElem?_map, List.getElem?_eq_getElem hp0lt] at hhead
  simp only [Option.map_some'] at hhead
  have hlow : jsToLower (doc.content.get ⟨p0, hp0lt⟩) = c0 := by
    have := Option.some.inj hhead
    simpa [List.get_eq_getElem] using this
  have hc0nws : jsWs c0 = false := htnws c0 (List.mem_cons_self _ _)
  have hcws : jsWs (doc.content.get ⟨p0, hp0lt⟩) = false := by
    cases hb : jsWs (doc.content.get ⟨p0, hp0lt⟩) with
    | false => rfl
    | true =>
      have h1 := jsToLower_of_ws hb
      rw [hlow] at h1
      rw [h1, hb] at hc0nws
      exact Bool.noConfusion hc0nws
  have hcand : 0 < (snippetCandidate doc.content 150 p0).length :=
    snippetCandidate_pos hp0lt hcws
  have hsnips : extractSnippets doc.content (p0 :: ps) 150 ≠ [] := by
    have htk : (p0 :: ps).take 3 = p0 :: ps.take 2 := rfl
    show (((p0 :: ps).take 3).foldl (snipStep doc.content 150) []) ≠ []
    rw [htk, List.foldl_cons]
    refine ne_nil_foldl_snipStep doc.content 150 _ _ ?_
    unfold snipStep
    rw [if_pos hcand, if_neg (List.not_mem_nil _)]
    simp
  have hterms : tokenize query ≠ [] := by
    intro hnil
    rw [hnil] at hlterm
    exact absurd hlterm (List.not_mem_nil _)
  refine ⟨?_, ?_, ?_⟩
  · rw [heq]
    show extractSnippets doc.content
      (docMatchPositions (tokenize query) (doc.content.map jsToLower)) 150 ≠ []
    rw [hps]
    exact hsnips
  · rw [heq]
    exact hpos
  · rw [heq]
    exact relevanceScore_pos hpos (List.length_pos.mpr hterms)

/-- Witness for C10 at a concrete input: one document "ab", query "a". -/
theorem searchDocuments_results_nonempty_snippets_witness :
    (docResult (tokenize ['a']) sampleDoc).snippets ≠ [] ∧
      1 ≤ (docResult (tokenize ['a']) sampleDoc).matchCount ∧
      0 < (docResult (tokenize ['a']) sampleDoc).relevanceScore :=
  searchDocuments_results_nonempty_snippets emptyStore [sampleDoc] ['a'] none
    (docResult (tokenize ['a']) sampleDoc) (by decide)
    (by rw [sampleSearch_eq]; exact List.mem_singleton_self _)

/-- C10 fails as literally stated: at the query term "." against the
single-space document — whose content lower-cases without change (of length
or text) — the regex dot matches the space at offset 0 (`dotExecPositions`,
faithful ECMAScript semantics), so the source emits a SearchResult with
matchCount 1; but the snippet window around that offset trims to nothing,
so the emitted snippets list is empty. -/
theorem searchDocuments_results_nonempty_snippets_counterexample :
    [' '].map jsToLower = [' '] ∧
      tokenize ['.'] = [['.']] ∧
      dotExecPositions ([' '].map jsToLower) = [0] ∧
      extractSnippets [' '] (dotExecPositions ([' '].map jsToLower)) 150 = [] := by
  refine ⟨by decide, by decide, by decide, by decide⟩

/-- C3 fails on the source (code bug): the query term is passed unescaped to
`new RegExp(term, 'g')`, so a punctuation character like "." is a regex
metacharacter, not a literal.  Against the content "xyz" the compiled pattern
for the term "." matches at every position (3 matches), while the literal
occurrence count of "." in "xyz" — what the claim specifies — is 0. -/
theorem dot_term_regex_vs_literal :
    dotExecPositions ['x', 'y', 'z'] = [0, 1, 2] ∧
      countOccurrences ['.'] ['x', 'y', 'z'] = 0 ∧
      (dotExecPositions ['x', 'y', 'z']).length ≠
        countOccurrences ['.'] ['x', 'y', 'z'] := by
  refine ⟨by decide, by decide, by decide⟩

/-- C4 fails on the source (code bug): for the query term "a*" the compiled
regex matches the empty string, `exec` then leaves `lastIndex` unchanged, and
the match-scanning `while` loop never exits — no number of loop iterations
finishes the scan of the content "b". -/
theorem starA_loop_never_terminates :
    ∀ (fuel lastIndex : Nat), starAExecGo ['b'] fuel lastIndex = none
  | 0, _ => rfl
  | fuel + 1, lastIndex => by
    rw [starAExecGo_succ]
    have hlen : (((['b'].drop lastIndex)).takeWhile (fun c => c = 'a')).length = 0 := by
      cases lastIndex with
      | zero => rfl
      | succ n => simp
    rw [hlen, Nat.add_zero, starA_loop_never_terminates fuel lastIndex]
    rfl

end RagNavigator
